import Mathlib

/-!
Shallow embedding of the BST/AVL engine of task4.py
(classes BinarySearchTree and AVLTree) and proofs of the
specified properties.  Keys are modelled as integers; the
Python `None` child link is the `nil` constructor.
-/

namespace Assignment11

/-- Shape of `BSTNode`: a value plus optional left and right children.
`nil` is Python `None`. -/
inductive Tree where
  | nil : Tree
  | node : Tree → Int → Tree → Tree
deriving Repr, DecidableEq

open Tree

/-- Embeds `BinarySearchTree._height_recursive`: height of `None` is `-1`,
else `max(height(left), height(right)) + 1`. -/
def height_recursive : Tree → Int
  | nil => -1
  | node l _ r => max (height_recursive l) (height_recursive r) + 1

/-- Proof helper: number of levels, `height_recursive t + 1`, as a natural number. -/
def heightN : Tree → Nat
  | nil => 0
  | node l _ r => max (heightN l) (heightN r) + 1

/-- Embeds `BinarySearchTree._count_nodes` (used by `__len__`, i.e. `size()`). -/
def count_nodes : Tree → Nat
  | nil => 0
  | node l _ r => 1 + count_nodes l + count_nodes r

/-- Embeds `BinarySearchTree._inorder_recursive`: Left, Node, Right. -/
def inorder : Tree → List Int
  | nil => []
  | node l v r => inorder l ++ v :: inorder r

/-- Embeds `BinarySearchTree._preorder_recursive`: Node, Left, Right. -/
def preorder : Tree → List Int
  | nil => []
  | node l v r => v :: (preorder l ++ preorder r)

/-- Embeds `BinarySearchTree._postorder_recursive`: Left, Right, Node. -/
def postorder : Tree → List Int
  | nil => []
  | node l v r => postorder l ++ postorder r ++ [v]

/-- Proof helper: total node count of the trees held in the BFS queue. -/
def queueSize (q : List Tree) : Nat := (q.map count_nodes).sum

/-- Embeds the `while queue:` loop of `BinarySearchTree.levelorder_traversal`:
pop the front node, record its value, and append the non-`None` children.
The queue never actually holds `nil` (children are pushed only when present);
that case is handled by skipping, which keeps the function total. -/
def levelorder_go : List Tree → List Int
  | [] => []
  | nil :: q => levelorder_go q
  | node l v r :: q =>
      v :: levelorder_go (q ++ (if l = nil then [] else [l]) ++ (if r = nil then [] else [r]))
termination_by q => 2 * queueSize q + q.length
decreasing_by
  · simp only [queueSize, List.map_cons, List.sum_cons, count_nodes, List.length_cons]
    omega
  · simp only [queueSize, List.map_cons, List.sum_cons, count_nodes, List.length_cons,
      List.map_append, List.sum_append, List.length_append]
    split <;> split <;> simp [count_nodes] <;> omega

/-- Embeds `BinarySearchTree.levelorder_traversal`: empty list for an empty
tree, else BFS from a queue seeded with the root. -/
def levelorder_traversal (t : Tree) : List Int :=
  match t with
  | nil => []
  | node l v r => levelorder_go [node l v r]

/-- Embeds `BinarySearchTree._search_recursive`; returns the found node
(modelled by its stored value), `none` when absent. -/
def search_recursive : Tree → Int → Option Int
  | nil, _ => none
  | node l x r, v =>
    if v = x then some x
    else if v < x then search_recursive l v
    else search_recursive r v

/-- Embeds `BinarySearchTree.insert` / `_insert_recursive`.  `none` models the
raised `DuplicateValueError`; the `nil` case covers both root insertion into an
empty tree and attaching a new leaf at a missing child link. -/
def insert_recursive : Tree → Int → Option Tree
  | nil, v => some (node nil v nil)
  | node l x r, v =>
    if v = x then none
    else if v < x then (insert_recursive l v).map (fun t => node t x r)
    else (insert_recursive r v).map (fun t => node l x t)

/-- Embeds the successor hunt of `_delete_recursive` case 4: the value of the
leftmost node of the (non-empty) right subtree. -/
def min_val : Tree → Int
  | nil => 0
  | node nil v _ => v
  | node (node a w b) _ _ => min_val (node a w b)

/-- Embeds the successor splice of `_delete_recursive` case 4: remove the
leftmost node, replacing it by its right child (`successor_parent.left =
successor.right`, or `node.right = successor.right` at the top). -/
def splice_min : Tree → Tree
  | nil => nil
  | node nil _ r => r
  | node (node a w b) v r => node (splice_min (node a w b)) v r

/-- Embeds `BinarySearchTree.delete` / `_delete_recursive`: returns the new
subtree together with the `deleted` flag.  The four cases mirror the source:
not found, descend left, descend right, and at the matching node either unlink
a leaf, splice the single child, or promote the in-order successor. -/
def delete_recursive : Tree → Int → Tree × Bool
  | nil, _ => (nil, false)
  | node l x r, v =>
    if v < x then
      let p := delete_recursive l v
      (node p.1 x r, p.2)
    else if x < v then
      let p := delete_recursive r v
      (node l x p.1, p.2)
    else
      match l, r with
      | nil, nil => (nil, true)
      | nil, node a w b => (node a w b, true)
      | node a w b, nil => (node a w b, true)
      | node a w b, node c y d =>
          (node (node a w b) (min_val (node c y d)) (splice_min (node c y d)), true)

/-- Embeds `BinarySearchTree.find_min`: follow left links from the root. -/
def find_min : Tree → Option Int
  | nil => none
  | node nil v _ => some v
  | node (node a w b) _ _ => find_min (node a w b)

/-- Embeds `BinarySearchTree.find_max`: follow right links from the root. -/
def find_max : Tree → Option Int
  | nil => none
  | node _ v nil => some v
  | node _ _ (node a w b) => find_max (node a w b)

/-- Embeds the inner `check_balance` of `BinarySearchTree.is_balanced`:
bottom-up pair (balanced-so-far, subtree height) with short-circuit `(False, 0)`
as soon as a subtree reports unbalanced. -/
def check_balance : Tree → Bool × Int
  | nil => (true, -1)
  | node l _ r =>
    let p := check_balance l
    if p.1 = false then (false, 0)
    else
      let q := check_balance r
      if q.1 = false then (false, 0)
      else (decide ((p.2 - q.2).natAbs ≤ 1), max p.2 q.2 + 1)

/-- Embeds `BinarySearchTree.is_balanced`. -/
def is_balanced (t : Tree) : Bool := (check_balance t).1

/-- Embeds `AVLTree._rotate_left`; only ever called on a node with a real
right child, the fallback keeps the function total. -/
def rotate_left : Tree → Tree
  | node l x (node rl y rr) => node (node l x rl) y rr
  | t => t

/-- Embeds `AVLTree._rotate_right`; mirror of `rotate_left`. -/
def rotate_right : Tree → Tree
  | node (node ll y lr) x r => node ll y (node lr x r)
  | t => t

/-- Embeds `AVLTree._get_balance_factor`: 0 for `None`, else
`height(left) - height(right)` via `_height_recursive`. -/
def get_balance_factor : Tree → Int
  | nil => 0
  | node l _ r => height_recursive l - height_recursive r

/-- Embeds `AVLTree._balance`: left-heavy nodes get a right rotation (preceded
by a left rotation of the left child when that child is right-heavy), right-heavy
nodes the mirror image, balanced nodes are returned unchanged. -/
def balance : Tree → Tree
  | nil => nil
  | node l x r =>
    if get_balance_factor (node l x r) > 1 then
      if get_balance_factor l < 0 then rotate_right (node (rotate_left l) x r)
      else rotate_right (node l x r)
    else if get_balance_factor (node l x r) < -1 then
      if get_balance_factor r > 0 then rotate_left (node l x (rotate_right r))
      else rotate_left (node l x r)
    else node l x r

/-- Embeds `AVLTree.insert` / `_insert_avl`: standard BST insertion followed by
`_balance` at every ancestor on the unwind; `none` models the raised
`DuplicateValueError`. -/
def insert_avl : Tree → Int → Option Tree
  | nil, v => some (node nil v nil)
  | node l x r, v =>
    if v = x then none
    else if v < x then (insert_avl l v).map (fun t => balance (node t x r))
    else (insert_avl r v).map (fun t => balance (node l x t))

/-- One caller-level BST insert: on `DuplicateValueError` the tree is kept
unchanged (the exception is caught by the caller, the structure is untouched). -/
def bst_insert_step (t : Tree) (v : Int) : Tree := (insert_recursive t v).getD t

/-- One caller-level AVL insert, keeping the tree on a duplicate. -/
def avl_insert_step (t : Tree) (v : Int) : Tree := (insert_avl t v).getD t

/-- Result of inserting a list of keys in order into an empty plain BST. -/
def bst_insert_all (l : List Int) : Tree := l.foldl bst_insert_step nil

/-- Result of inserting a list of keys in order into an empty AVL tree. -/
def avl_insert_all (l : List Int) : Tree := l.foldl avl_insert_step nil

/-- The BST ordering invariant of the source: at every node all keys of the
left subtree are smaller and all keys of the right subtree larger. -/
def Ordered : Tree → Prop
  | nil => True
  | node l x r => Ordered l ∧ Ordered r ∧ (∀ k ∈ inorder l, k < x) ∧ (∀ k ∈ inorder r, x < k)

/-- The AVL balance invariant: at every node the two subtree heights differ by
at most one. -/
def AvlP : Tree → Prop
  | nil => True
  | node l _ r => AvlP l ∧ AvlP r ∧ heightN l ≤ heightN r + 1 ∧ heightN r ≤ heightN l + 1

/-! Basic lemmas relating the embedded operations. -/

theorem height_recursive_eq_heightN (t : Tree) :
    height_recursive t = (heightN t : Int) - 1 := by
  induction t with
  | nil => simp [height_recursive, heightN]
  | node l x r ihl ihr =>
    simp only [height_recursive, heightN, ihl, ihr]
    push_cast
    omega

theorem get_balance_factor_node (l : Tree) (x : Int) (r : Tree) :
    get_balance_factor (node l x r) = (heightN l : Int) - heightN r := by
  simp only [get_balance_factor, height_recursive_eq_heightN]
  ring

theorem count_nodes_eq_length (t : Tree) :
    count_nodes t = (inorder t).length := by
  induction t with
  | nil => simp [count_nodes, inorder]
  | node l x r ihl ihr => simp [count_nodes, inorder, ihl, ihr]; omega

theorem inorder_rotate_left (t : Tree) : inorder (rotate_left t) = inorder t := by
  match t with
  | nil => rfl
  | node l x nil => rfl
  | node l x (node rl y rr) => simp [rotate_left, inorder]

theorem inorder_rotate_right (t : Tree) : inorder (rotate_right t) = inorder t := by
  match t with
  | nil => rfl
  | node nil x r => rfl
  | node (node ll y lr) x r => simp [rotate_right, inorder]

theorem inorder_balance (t : Tree) : inorder (balance t) = inorder t := by
  match t with
  | nil => rfl
  | node l x r =>
    simp only [balance]
    split
    · split
      · rw [inorder_rotate_right]; simp [inorder, inorder_rotate_left]
      · rw [inorder_rotate_right]
    · split
      · split
        · rw [inorder_rotate_left]; simp [inorder, inorder_rotate_right]
        · rw [inorder_rotate_left]
      · rfl

theorem check_balance_spec (t : Tree) :
    ((check_balance t).1 = true ↔ AvlP t) ∧
    ((check_balance t).1 = true → (check_balance t).2 = height_recursive t) := by
  induction t with
  | nil => simp [check_balance, AvlP, height_recursive]
  | node l x r ihl ihr =>
    rcases hp : check_balance l with ⟨pb, ph⟩
    rcases hq : check_balance r with ⟨qb, qh⟩
    rw [hp] at ihl
    rw [hq] at ihr
    simp only [check_balance, hp, hq]
    cases pb with
    | false =>
      simp only [AvlP]
      constructor
      · constructor
        · intro h; simp at h
        · rintro ⟨h, -⟩
          exact absurd (ihl.1.mpr h) (by simp)
      · intro h; simp at h
    | true =>
      cases qb with
      | false =>
        simp only [AvlP]
        constructor
        · constructor
          · intro h; simp at h
          · rintro ⟨-, h, -⟩
            exact absurd (ihr.1.mpr h) (by simp)
        · intro h; simp at h
      | true =>
        have hph : ph = height_recursive l := ihl.2 rfl
        have hqh : qh = height_recursive r := ihr.2 rfl
        subst hph hqh
        have hal : AvlP l := ihl.1.mp rfl
        have har : AvlP r := ihr.1.mp rfl
        have hl2 := height_recursive_eq_heightN l
        have hr2 := height_recursive_eq_heightN r
        rw [if_neg (by simp), if_neg (by simp)]
        constructor
        · simp only [decide_eq_true_eq, AvlP, hl2, hr2]
          constructor
          · intro h
            exact ⟨hal, har, by omega, by omega⟩
          · rintro ⟨-, -, h1, h2⟩
            omega
        · intro _
          simp [height_recursive]

theorem is_balanced_iff_AvlP (t : Tree) : is_balanced t = true ↔ AvlP t :=
  (check_balance_spec t).1

theorem ordered_iff_pairwise (t : Tree) :
    Ordered t ↔ List.Pairwise (· < ·) (inorder t) := by
  induction t with
  | nil => simp [Ordered, inorder]
  | node l x r ihl ihr =>
    simp only [Ordered, inorder, List.pairwise_append, List.pairwise_cons, ihl, ihr]
    constructor
    · rintro ⟨hl, hr, hbl, hbr⟩
      refine ⟨hl, ⟨hbr, hr⟩, ?_⟩
      intro a ha b hb
      rcases List.mem_cons.mp hb with hbx | hbr2
      · subst hbx; exact hbl a ha
      · exact lt_trans (hbl a ha) (hbr b hbr2)
    · rintro ⟨hl, ⟨hx, hr⟩, hcross⟩
      exact ⟨hl, hr, fun k hk => hcross k hk x (List.mem_cons_self _ _), hx⟩

/-! AVL rebalancing: `_balance` restores the invariant at a node whose
subtrees are AVL and whose heights differ by at most two. -/

theorem balance_spec (l : Tree) (x : Int) (r : Tree)
    (hal : AvlP l) (har : AvlP r)
    (hd1 : heightN l ≤ heightN r + 2) (hd2 : heightN r ≤ heightN l + 2) :
    AvlP (balance (node l x r)) ∧
    max (heightN l) (heightN r) ≤ heightN (balance (node l x r)) ∧
    heightN (balance (node l x r)) ≤ max (heightN l) (heightN r) + 1 ∧
    (heightN l ≤ heightN r + 1 → heightN r ≤ heightN l + 1 →
      heightN (balance (node l x r)) = max (heightN l) (heightN r) + 1) := by
  by_cases h1 : get_balance_factor (node l x r) > 1
  · have h1' : heightN l = heightN r + 2 := by
      rw [get_balance_factor_node] at h1; omega
    cases l with
    | nil => simp [heightN] at h1'
    | node ll y lr =>
      simp only [AvlP] at hal
      obtain ⟨hall, halr, hb1, hb2⟩ := hal
      simp only [balance]
      rw [if_pos h1]
      by_cases h2 : get_balance_factor (node ll y lr) < 0
      · rw [if_pos h2]
        have h2' : heightN ll < heightN lr := by
          rw [get_balance_factor_node] at h2; omega
        cases lr with
        | nil => simp [heightN] at h2'
        | node lrl z lrr =>
          simp only [AvlP] at halr
          obtain ⟨halrl, halrr, hb3, hb4⟩ := halr
          simp only [rotate_left, rotate_right, AvlP, heightN] at h1' h2' hb1 hb2 ⊢
          refine ⟨⟨⟨hall, halrl, ?_, ?_⟩, ⟨halrr, har, ?_, ?_⟩, ?_, ?_⟩, ?_, ?_,
            fun hc1 hc2 => ?_⟩ <;> omega
      · rw [if_neg h2]
        have h2' : heightN lr ≤ heightN ll := by
          rw [get_balance_factor_node] at h2; omega
        simp only [rotate_right, AvlP, heightN] at h1' hb1 hb2 ⊢
        refine ⟨⟨hall, ⟨halr, har, ?_, ?_⟩, ?_, ?_⟩, ?_, ?_, fun hc1 hc2 => ?_⟩ <;> omega
  · by_cases h3 : get_balance_factor (node l x r) < -1
    · have h3' : heightN r = heightN l + 2 := by
        rw [get_balance_factor_node] at h3; omega
      cases r with
      | nil => simp [heightN] at h3'
      | node rl y rr =>
        simp only [AvlP] at har
        obtain ⟨harl, harr, hb1, hb2⟩ := har
        simp only [balance]
        rw [if_neg h1, if_pos h3]
        by_cases h4 : get_balance_factor (node rl y rr) > 0
        · rw [if_pos h4]
          have h4' : heightN rr < heightN rl := by
            rw [get_balance_factor_node] at h4; omega
          cases rl with
          | nil => simp [heightN] at h4'
          | node rll z rlr =>
            simp only [AvlP] at harl
            obtain ⟨harll, harlr, hb3, hb4⟩ := harl
            simp only [rotate_right, rotate_left, AvlP, heightN] at h3' h4' hb1 hb2 ⊢
            refine ⟨⟨⟨hal, harll, ?_, ?_⟩, ⟨harlr, harr, ?_, ?_⟩, ?_, ?_⟩, ?_, ?_,
              fun hc1 hc2 => ?_⟩ <;> omega
        · rw [if_neg h4]
          have h4' : heightN rl ≤ heightN rr := by
            rw [get_balance_factor_node] at h4; omega
          simp only [rotate_left, AvlP, heightN] at h3' hb1 hb2 ⊢
          refine ⟨⟨⟨hal, harl, ?_, ?_⟩, harr, ?_, ?_⟩, ?_, ?_, fun hc1 hc2 => ?_⟩ <;> omega
    · simp only [balance]
      rw [if_neg h1, if_neg h3]
      rw [get_balance_factor_node] at h1 h3
      simp only [AvlP, heightN]
      exact ⟨⟨hal, har, by omega, by omega⟩, by omega, by omega, fun _ _ => trivial⟩

/-- AVL insertion preserves the balance invariant and changes the height by at
most one (never decreasing it). -/
theorem insert_avl_avlP (t : Tree) (v : Int) :
    AvlP t → ∀ t', insert_avl t v = some t' →
    AvlP t' ∧ heightN t ≤ heightN t' ∧ heightN t' ≤ heightN t + 1 := by
  induction t with
  | nil =>
    intro _ t' h
    simp only [insert_avl, Option.some.injEq] at h
    subst h
    simp [AvlP, heightN]
  | node l x r ihl ihr =>
    intro ha t' h
    simp only [AvlP] at ha
    obtain ⟨hal, har, hb1, hb2⟩ := ha
    simp only [insert_avl] at h
    by_cases hvx : v = x
    · rw [if_pos hvx] at h; cases h
    · rw [if_neg hvx] at h
      by_cases hlt : v < x
      · rw [if_pos hlt, Option.map_eq_some'] at h
        obtain ⟨l0, hl0, ht'⟩ := h
        subst ht'
        obtain ⟨hal0, hlow, hhigh⟩ := ihl hal l0 hl0
        obtain ⟨hA, hB, hC, hD⟩ :=
          balance_spec l0 x r hal0 har (by omega) (by omega)
        refine ⟨hA, ?_, ?_⟩
        · by_cases hcase : heightN l0 ≤ heightN r + 1
          · have hE := hD hcase (by omega)
            simp only [heightN]
            omega
          · simp only [heightN]
            omega
        · simp only [heightN]
          omega
      · rw [if_neg hlt, Option.map_eq_some'] at h
        obtain ⟨r0, hr0, ht'⟩ := h
        subst ht'
        obtain ⟨har0, hlow, hhigh⟩ := ihr har r0 hr0
        obtain ⟨hA, hB, hC, hD⟩ :=
          balance_spec l x r0 hal har0 (by omega) (by omega)
        refine ⟨hA, ?_, ?_⟩
        · by_cases hcase : heightN r0 ≤ heightN l + 1
          · have hE := hD (by omega) hcase
            simp only [heightN]
            omega
          · simp only [heightN]
            omega
        · simp only [heightN]
          omega

/-- One caller-level AVL insert keeps the balance invariant. -/
theorem avl_insert_step_avlP (t : Tree) (v : Int) (ha : AvlP t) :
    AvlP (avl_insert_step t v) := by
  unfold avl_insert_step
  cases h : insert_avl t v with
  | none => simpa using ha
  | some t' => simpa using (insert_avl_avlP t v ha t' h).1

/-- Any sequence of caller-level AVL inserts starting from the empty tree
yields a tree satisfying the AVL invariant. -/
theorem avl_insert_all_avlP (l : List Int) : AvlP (avl_insert_all l) := by
  suffices h : ∀ t, AvlP t → AvlP (List.foldl avl_insert_step t l) from
    h nil (by simp [AvlP])
  induction l with
  | nil => intro t h; simpa using h
  | cons a l ih =>
    intro t h
    exact ih _ (avl_insert_step_avlP t a h)

/-! Insertion lemmas shared by the plain BST and the AVL engine. -/

theorem insert_recursive_inorder (t : Tree) (v : Int) :
    ∀ t', insert_recursive t v = some t' →
    ∃ as bs, inorder t = as ++ bs ∧ inorder t' = as ++ v :: bs := by
  induction t with
  | nil =>
    intro t' h
    simp only [insert_recursive, Option.some.injEq] at h
    subst h
    exact ⟨[], [], by simp [inorder], by simp [inorder]⟩
  | node l x r ihl ihr =>
    intro t' h
    simp only [insert_recursive] at h
    by_cases hvx : v = x
    · rw [if_pos hvx] at h; cases h
    · rw [if_neg hvx] at h
      by_cases hlt : v < x
      · rw [if_pos hlt, Option.map_eq_some'] at h
        obtain ⟨l0, hl0, ht'⟩ := h
        subst ht'
        obtain ⟨as, bs, h1, h2⟩ := ihl l0 hl0
        exact ⟨as, bs ++ x :: inorder r, by simp [inorder, h1], by simp [inorder, h2]⟩
      · rw [if_neg hlt, Option.map_eq_some'] at h
        obtain ⟨r0, hr0, ht'⟩ := h
        subst ht'
        obtain ⟨as, bs, h1, h2⟩ := ihr r0 hr0
        exact ⟨inorder l ++ x :: as, bs, by simp [inorder, h1], by simp [inorder, h2]⟩

theorem insert_avl_inorder (t : Tree) (v : Int) :
    ∀ t', insert_avl t v = some t' →
    ∃ as bs, inorder t = as ++ bs ∧ inorder t' = as ++ v :: bs := by
  induction t with
  | nil =>
    intro t' h
    simp only [insert_avl, Option.some.injEq] at h
    subst h
    exact ⟨[], [], by simp [inorder], by simp [inorder]⟩
  | node l x r ihl ihr =>
    intro t' h
    simp only [insert_avl] at h
    by_cases hvx : v = x
    · rw [if_pos hvx] at h; cases h
    · rw [if_neg hvx] at h
      by_cases hlt : v < x
      · rw [if_pos hlt, Option.map_eq_some'] at h
        obtain ⟨l0, hl0, ht'⟩ := h
        subst ht'
        obtain ⟨as, bs, h1, h2⟩ := ihl l0 hl0
        refine ⟨as, bs ++ x :: inorder r, by simp [inorder, h1], ?_⟩
        rw [inorder_balance]
        simp [inorder, h2]
      · rw [if_neg hlt, Option.map_eq_some'] at h
        obtain ⟨r0, hr0, ht'⟩ := h
        subst ht'
        obtain ⟨as, bs, h1, h2⟩ := ihr r0 hr0
        refine ⟨inorder l ++ x :: as, bs, by simp [inorder, h1], ?_⟩
        rw [inorder_balance]
        simp [inorder, h2]

theorem mem_insert_recursive (t t' : Tree) (v : Int)
    (h : insert_recursive t v = some t') (k : Int) :
    k ∈ inorder t' ↔ k = v ∨ k ∈ inorder t := by
  obtain ⟨as, bs, h1, h2⟩ := insert_recursive_inorder t v t' h
  simp only [h1, h2, List.mem_append, List.mem_cons]
  tauto

theorem mem_insert_avl (t t' : Tree) (v : Int)
    (h : insert_avl t v = some t') (k : Int) :
    k ∈ inorder t' ↔ k = v ∨ k ∈ inorder t := by
  obtain ⟨as, bs, h1, h2⟩ := insert_avl_inorder t v t' h
  simp only [h1, h2, List.mem_append, List.mem_cons]
  tauto

theorem count_insert_recursive (t t' : Tree) (v : Int)
    (h : insert_recursive t v = some t') :
    count_nodes t' = count_nodes t + 1 := by
  obtain ⟨as, bs, h1, h2⟩ := insert_recursive_inorder t v t' h
  rw [count_nodes_eq_length, count_nodes_eq_length, h1, h2]
  simp
  omega

theorem count_insert_avl (t t' : Tree) (v : Int)
    (h : insert_avl t v = some t') :
    count_nodes t' = count_nodes t + 1 := by
  obtain ⟨as, bs, h1, h2⟩ := insert_avl_inorder t v t' h
  rw [count_nodes_eq_length, count_nodes_eq_length, h1, h2]
  simp
  omega

theorem insert_recursive_ordered (t : Tree) (v : Int) :
    Ordered t → ∀ t', insert_recursive t v = some t' → Ordered t' := by
  induction t with
  | nil =>
    intro _ t' h
    simp only [insert_recursive, Option.some.injEq] at h
    subst h
    simp [Ordered, inorder]
  | node l x r ihl ihr =>
    intro ho t' h
    simp only [Ordered] at ho
    obtain ⟨hol, hor, hbl, hbr⟩ := ho
    simp only [insert_recursive] at h
    by_cases hvx : v = x
    · rw [if_pos hvx] at h; cases h
    · rw [if_neg hvx] at h
      by_cases hlt : v < x
      · rw [if_pos hlt, Option.map_eq_some'] at h
        obtain ⟨l0, hl0, ht'⟩ := h
        subst ht'
        simp only [Ordered]
        refine ⟨ihl hol l0 hl0, hor, ?_, hbr⟩
        intro k hk
        rcases (mem_insert_recursive l l0 v hl0 k).mp hk with rfl | hk2
        · exact hlt
        · exact hbl k hk2
      · rw [if_neg hlt, Option.map_eq_some'] at h
        obtain ⟨r0, hr0, ht'⟩ := h
        subst ht'
        simp only [Ordered]
        refine ⟨hol, ihr hor r0 hr0, hbl, ?_⟩
        intro k hk
        rcases (mem_insert_recursive r r0 v hr0 k).mp hk with rfl | hk2
        · omega
        · exact hbr k hk2

theorem insert_avl_ordered (t : Tree) (v : Int) :
    Ordered t → ∀ t', insert_avl t v = some t' → Ordered t' := by
  induction t with
  | nil =>
    intro _ t' h
    simp only [insert_avl, Option.some.injEq] at h
    subst h
    simp [Ordered, inorder]
  | node l x r ihl ihr =>
    intro ho t' h
    simp only [Ordered] at ho
    obtain ⟨hol, hor, hbl, hbr⟩ := ho
    simp only [insert_avl] at h
    by_cases hvx : v = x
    · rw [if_pos hvx] at h; cases h
    · rw [if_neg hvx] at h
      by_cases hlt : v < x
      · rw [if_pos hlt, Option.map_eq_some'] at h
        obtain ⟨l0, hl0, ht'⟩ := h
        subst ht'
        rw [ordered_iff_pairwise, inorder_balance, ← ordered_iff_pairwise]
        simp only [Ordered]
        refine ⟨ihl hol l0 hl0, hor, ?_, hbr⟩
        intro k hk
        rcases (mem_insert_avl l l0 v hl0 k).mp hk with rfl | hk2
        · exact hlt
        · exact hbl k hk2
      · rw [if_neg hlt, Option.map_eq_some'] at h
        obtain ⟨r0, hr0, ht'⟩ := h
        subst ht'
        rw [ordered_iff_pairwise, inorder_balance, ← ordered_iff_pairwise]
        simp only [Ordered]
        refine ⟨hol, ihr hor r0 hr0, hbl, ?_⟩
        intro k hk
        rcases (mem_insert_avl r r0 v hr0 k).mp hk with rfl | hk2
        · omega
        · exact hbr k hk2

theorem insert_recursive_none_iff (t : Tree) (v : Int) :
    Ordered t → (insert_recursive t v = none ↔ v ∈ inorder t) := by
  induction t with
  | nil => intro _; simp [insert_recursive, inorder]
  | node l x r ihl ihr =>
    intro ho
    simp only [Ordered] at ho
    obtain ⟨hol, hor, hbl, hbr⟩ := ho
    simp only [insert_recursive, inorder, List.mem_append, List.mem_cons]
    by_cases hvx : v = x
    · simp [hvx]
    · rw [if_neg hvx]
      by_cases hlt : v < x
      · rw [if_pos hlt]
        simp only [Option.map_eq_none']
        rw [ihl hol]
        constructor
        · intro h; exact Or.inl h
        · rintro (h | h | h)
          · exact h
          · exact absurd h hvx
          · exact absurd (hbr v h) (by omega)
      · rw [if_neg hlt]
        simp only [Option.map_eq_none']
        rw [ihr hor]
        constructor
        · intro h; exact Or.inr (Or.inr h)
        · rintro (h | h | h)
          · exact absurd (hbl v h) (by omega)
          · exact absurd h hvx
          · exact h

theorem insert_avl_none_iff (t : Tree) (v : Int) :
    Ordered t → (insert_avl t v = none ↔ v ∈ inorder t) := by
  induction t with
  | nil => intro _; simp [insert_avl, inorder]
  | node l x r ihl ihr =>
    intro ho
    simp only [Ordered] at ho
    obtain ⟨hol, hor, hbl, hbr⟩ := ho
    simp only [insert_avl, inorder, List.mem_append, List.mem_cons]
    by_cases hvx : v = x
    · simp [hvx]
    · rw [if_neg hvx]
      by_cases hlt : v < x
      · rw [if_pos hlt]
        simp only [Option.map_eq_none']
        rw [ihl hol]
        constructor
        · intro h; exact Or.inl h
        · rintro (h | h | h)
          · exact h
          · exact absurd h hvx
          · exact absurd (hbr v h) (by omega)
      · rw [if_neg hlt]
        simp only [Option.map_eq_none']
        rw [ihr hor]
        constructor
        · intro h; exact Or.inr (Or.inr h)
        · rintro (h | h | h)
          · exact absurd (hbl v h) (by omega)
          · exact absurd h hvx
          · exact h

/-! Deletion lemmas. -/

theorem inorder_splice_min : ∀ (l : Tree) (x : Int) (r : Tree),
    inorder (node l x r) = min_val (node l x r) :: inorder (splice_min (node l x r)) := by
  intro l
  induction l with
  | nil => intro x r; rfl
  | node a w b iha ihb =>
    intro x r
    show inorder (node a w b) ++ x :: inorder r =
      min_val (node a w b) :: (inorder (splice_min (node a w b)) ++ x :: inorder r)
    rw [iha w b]
    rfl

theorem inorder_head_min_val (l : Tree) (x : Int) (r : Tree) :
    (inorder (node l x r)).head? = some (min_val (node l x r)) := by
  rw [inorder_splice_min l x r]
  rfl

theorem min_val_le (rl : Tree) (rx : Int) (rr : Tree) (ho : Ordered (node rl rx rr)) :
    ∀ k ∈ inorder (node rl rx rr), min_val (node rl rx rr) ≤ k := by
  intro k hk
  rw [ordered_iff_pairwise] at ho
  rw [inorder_splice_min rl rx rr] at hk ho
  rcases List.mem_cons.mp hk with rfl | hk2
  · exact le_refl _
  · exact le_of_lt ((List.pairwise_cons.mp ho).1 k hk2)

theorem delete_not_deleted (t : Tree) (k : Int) :
    (delete_recursive t k).2 = false → (delete_recursive t k).1 = t := by
  induction t with
  | nil => intro _; rfl
  | node l x r ihl ihr =>
    by_cases h1 : k < x
    · simp only [delete_recursive, if_pos h1]
      intro h
      rw [ihl h]
    · by_cases h2 : x < k
      · simp only [delete_recursive, if_neg h1, if_pos h2]
        intro h
        rw [ihr h]
      · simp only [delete_recursive, if_neg h1, if_neg h2]
        cases l <;> cases r <;> simp

theorem delete_not_found (t : Tree) (k : Int) :
    Ordered t → k ∉ inorder t → (delete_recursive t k).2 = false := by
  induction t with
  | nil => intro _ _; rfl
  | node l x r ihl ihr =>
    intro ho hk
    simp only [Ordered] at ho
    obtain ⟨hol, hor, hbl, hbr⟩ := ho
    simp only [inorder, List.mem_append, List.mem_cons] at hk
    push_neg at hk
    obtain ⟨h1, h2, h3⟩ := hk
    by_cases hlt : k < x
    · simp only [delete_recursive, if_pos hlt]
      exact ihl hol h1
    · have hgt : x < k := by omega
      simp only [delete_recursive, if_neg hlt, if_pos hgt]
      exact ihr hor h3

theorem delete_deleted_mem (t : Tree) (k : Int) (ho : Ordered t)
    (h : (delete_recursive t k).2 = true) : k ∈ inorder t := by
  by_contra hk
  rw [delete_not_found t k ho hk] at h
  cases h

theorem delete_inorder (t : Tree) (k : Int) :
    Ordered t → (delete_recursive t k).2 = true →
    inorder (delete_recursive t k).1 = (inorder t).erase k := by
  induction t with
  | nil => intro _ h; cases h
  | node l x r ihl ihr =>
    intro ho hd
    simp only [Ordered] at ho
    obtain ⟨hol, hor, hbl, hbr⟩ := ho
    by_cases h1 : k < x
    · simp only [delete_recursive, if_pos h1] at hd ⊢
      have hmem : k ∈ inorder l := delete_deleted_mem l k hol hd
      simp only [inorder]
      rw [ihl hol hd, List.erase_append_left _ hmem]
    · by_cases h2 : x < k
      · simp only [delete_recursive, if_neg h1, if_pos h2] at hd ⊢
        have hknl : k ∉ inorder l := fun hmem => absurd (hbl k hmem) (by omega)
        simp only [inorder]
        rw [ihr hor hd, List.erase_append_right _ hknl,
          List.erase_cons_tail (by simp; omega)]
      · have hx : k = x := by omega
        subst hx
        simp only [delete_recursive, if_neg h1, if_neg h2]
        cases l with
        | nil =>
          cases r with
          | nil => simp [inorder]
          | node c y d => simp [inorder]
        | node a w b =>
          have hknl : k ∉ inorder (node a w b) :=
            fun hmem => absurd (hbl k hmem) (lt_irrefl k)
          cases r with
          | nil =>
            show inorder (node a w b) = (inorder (node a w b) ++ k :: inorder nil).erase k
            rw [List.erase_append_right _ hknl]
            simp [inorder]
          | node c y d =>
            show inorder (node a w b) ++
                min_val (node c y d) :: inorder (splice_min (node c y d)) =
              (inorder (node a w b) ++ k :: inorder (node c y d)).erase k
            rw [List.erase_append_right _ hknl, List.erase_cons_head]
            exact congrArg _ (inorder_splice_min c y d).symm

theorem search_found (t : Tree) (k : Int) :
    Ordered t → k ∈ inorder t → search_recursive t k = some k := by
  induction t with
  | nil => intro _ h; simp [inorder] at h
  | node l x r ihl ihr =>
    intro ho hk
    simp only [Ordered] at ho
    obtain ⟨hol, hor, hbl, hbr⟩ := ho
    simp only [inorder, List.mem_append, List.mem_cons] at hk
    simp only [search_recursive]
    by_cases hvx : k = x
    · rw [if_pos hvx, hvx]
    · rw [if_neg hvx]
      rcases hk with hk | hk | hk
      · rw [if_pos (hbl k hk)]
        exact ihl hol hk
      · exact absurd hk hvx
      · rw [if_neg (by have := hbr k hk; omega)]
        exact ihr hor hk

theorem search_not_found (t : Tree) (k : Int) :
    Ordered t → k ∉ inorder t → search_recursive t k = none := by
  induction t with
  | nil => intro _ _; rfl
  | node l x r ihl ihr =>
    intro ho hk
    simp only [Ordered] at ho
    obtain ⟨hol, hor, -, -⟩ := ho
    simp only [inorder, List.mem_append, List.mem_cons] at hk
    push_neg at hk
    obtain ⟨h1, h2, h3⟩ := hk
    simp only [search_recursive]
    rw [if_neg h2]
    by_cases hlt : k < x
    · rw [if_pos hlt]
      exact ihl hol h1
    · rw [if_neg hlt]
      exact ihr hor h3

/-! Caller-level step and fold lemmas. -/

theorem bst_insert_step_ordered (t : Tree) (v : Int) (ho : Ordered t) :
    Ordered (bst_insert_step t v) := by
  unfold bst_insert_step
  cases h : insert_recursive t v with
  | none => simpa using ho
  | some t' => simpa using insert_recursive_ordered t v ho t' h

theorem avl_insert_step_ordered (t : Tree) (v : Int) (ho : Ordered t) :
    Ordered (avl_insert_step t v) := by
  unfold avl_insert_step
  cases h : insert_avl t v with
  | none => simpa using ho
  | some t' => simpa using insert_avl_ordered t v ho t' h

theorem mem_bst_insert_step (t : Tree) (v : Int) (ho : Ordered t) (k : Int) :
    k ∈ inorder (bst_insert_step t v) ↔ k = v ∨ k ∈ inorder t := by
  unfold bst_insert_step
  cases h : insert_recursive t v with
  | none =>
    have hv : v ∈ inorder t := (insert_recursive_none_iff t v ho).mp h
    simp only [Option.getD_none]
    constructor
    · intro hk; exact Or.inr hk
    · rintro (rfl | hk)
      · exact hv
      · exact hk
  | some t' => simpa using mem_insert_recursive t t' v h k

theorem mem_avl_insert_step (t : Tree) (v : Int) (ho : Ordered t) (k : Int) :
    k ∈ inorder (avl_insert_step t v) ↔ k = v ∨ k ∈ inorder t := by
  unfold avl_insert_step
  cases h : insert_avl t v with
  | none =>
    have hv : v ∈ inorder t := (insert_avl_none_iff t v ho).mp h
    simp only [Option.getD_none]
    constructor
    · intro hk; exact Or.inr hk
    · rintro (rfl | hk)
      · exact hv
      · exact hk
  | some t' => simpa using mem_insert_avl t t' v h k

theorem bst_foldl_ordered (l : List Int) :
    ∀ t, Ordered t → Ordered (List.foldl bst_insert_step t l) := by
  induction l with
  | nil => intro t h; simpa using h
  | cons a l ih => intro t h; exact ih _ (bst_insert_step_ordered t a h)

theorem avl_foldl_ordered (l : List Int) :
    ∀ t, Ordered t → Ordered (List.foldl avl_insert_step t l) := by
  induction l with
  | nil => intro t h; simpa using h
  | cons a l ih => intro t h; exact ih _ (avl_insert_step_ordered t a h)

theorem bst_insert_all_ordered (l : List Int) : Ordered (bst_insert_all l) :=
  bst_foldl_ordered l nil (by simp [Ordered])

theorem avl_insert_all_ordered (l : List Int) : Ordered (avl_insert_all l) :=
  avl_foldl_ordered l nil (by simp [Ordered])

theorem mem_bst_foldl (l : List Int) :
    ∀ t, Ordered t → ∀ k,
      (k ∈ inorder (List.foldl bst_insert_step t l) ↔ k ∈ l ∨ k ∈ inorder t) := by
  induction l with
  | nil => intro t _ k; simp
  | cons a l ih =>
    intro t h k
    rw [List.foldl_cons, ih _ (bst_insert_step_ordered t a h),
      mem_bst_insert_step t a h k]
    simp only [List.mem_cons]
    tauto

theorem mem_avl_foldl (l : List Int) :
    ∀ t, Ordered t → ∀ k,
      (k ∈ inorder (List.foldl avl_insert_step t l) ↔ k ∈ l ∨ k ∈ inorder t) := by
  induction l with
  | nil => intro t _ k; simp
  | cons a l ih =>
    intro t h k
    rw [List.foldl_cons, ih _ (avl_insert_step_ordered t a h),
      mem_avl_insert_step t a h k]
    simp only [List.mem_cons]
    tauto

/-! State-threaded forms of the query operations.  Each mirrors the Python
method body: the recursion reads child links, computes the result, and never
assigns to `self.root` or to any node field, so the structure handed back is
rebuilt unchanged from the recursive returns. -/

/-- State-threaded `search`. -/
def search_st : Tree → Int → Option Int × Tree
  | nil, _ => (none, nil)
  | node l x r, v =>
    if v = x then (some x, node l x r)
    else if v < x then
      let p := search_st l v
      (p.1, node p.2 x r)
    else
      let p := search_st r v
      (p.1, node l x p.2)

/-- State-threaded `inorder_traversal`. -/
def inorder_st : Tree → List Int × Tree
  | nil => ([], nil)
  | node l v r =>
    let p := inorder_st l
    let q := inorder_st r
    (p.1 ++ v :: q.1, node p.2 v q.2)

/-- State-threaded `preorder_traversal`. -/
def preorder_st : Tree → List Int × Tree
  | nil => ([], nil)
  | node l v r =>
    let p := preorder_st l
    let q := preorder_st r
    (v :: (p.1 ++ q.1), node p.2 v q.2)

/-- State-threaded `postorder_traversal`. -/
def postorder_st : Tree → List Int × Tree
  | nil => ([], nil)
  | node l v r =>
    let p := postorder_st l
    let q := postorder_st r
    (p.1 ++ q.1 ++ [v], node p.2 v q.2)

/-- State-threaded `levelorder_traversal`: the BFS loop only reads child
links, the root is handed back untouched. -/
def levelorder_st (t : Tree) : List Int × Tree := (levelorder_traversal t, t)

/-- State-threaded `find_min`. -/
def find_min_st : Tree → Option Int × Tree
  | nil => (none, nil)
  | node nil v r => (some v, node nil v r)
  | node (node a w b) v r =>
    let p := find_min_st (node a w b)
    (p.1, node p.2 v r)

/-- State-threaded `find_max`. -/
def find_max_st : Tree → Option Int × Tree
  | nil => (none, nil)
  | node l v nil => (some v, node l v nil)
  | node l v (node a w b) =>
    let p := find_max_st (node a w b)
    (p.1, node l v p.2)

/-- State-threaded `height`. -/
def height_st : Tree → Int × Tree
  | nil => (-1, nil)
  | node l v r =>
    let p := height_st l
    let q := height_st r
    (max p.1 q.1 + 1, node p.2 v q.2)

/-- State-threaded `is_balanced` (inner `check_balance`). -/
def check_balance_st : Tree → (Bool × Int) × Tree
  | nil => ((true, -1), nil)
  | node l v r =>
    let p := check_balance_st l
    let q := check_balance_st r
    (if p.1.1 = false then (false, 0)
     else if q.1.1 = false then (false, 0)
     else (decide ((p.1.2 - q.1.2).natAbs ≤ 1), max p.1.2 q.1.2 + 1),
     node p.2 v q.2)

/-- State-threaded `size` (`_count_nodes`). -/
def count_st : Tree → Nat × Tree
  | nil => (0, nil)
  | node l v r =>
    let p := count_st l
    let q := count_st r
    (1 + p.1 + q.1, node p.2 v q.2)

theorem search_st_frame (t : Tree) (v : Int) : (search_st t v).2 = t := by
  induction t with
  | nil => rfl
  | node l x r ihl ihr =>
    simp only [search_st]
    split_ifs <;> simp [ihl, ihr]

theorem inorder_st_frame (t : Tree) : (inorder_st t).2 = t := by
  induction t with
  | nil => rfl
  | node l x r ihl ihr => simp [inorder_st, ihl, ihr]

theorem preorder_st_frame (t : Tree) : (preorder_st t).2 = t := by
  induction t with
  | nil => rfl
  | node l x r ihl ihr => simp [preorder_st, ihl, ihr]

theorem postorder_st_frame (t : Tree) : (postorder_st t).2 = t := by
  induction t with
  | nil => rfl
  | node l x r ihl ihr => simp [postorder_st, ihl, ihr]

theorem find_min_st_frame (t : Tree) : (find_min_st t).2 = t := by
  induction t with
  | nil => rfl
  | node l x r ihl ihr =>
    cases l with
    | nil => rfl
    | node a w b => simp only [find_min_st]; simp_all

theorem find_max_st_frame (t : Tree) : (find_max_st t).2 = t := by
  induction t with
  | nil => rfl
  | node l x r ihl ihr =>
    cases r with
    | nil => rfl
    | node a w b => simp only [find_max_st]; simp_all

theorem height_st_frame (t : Tree) : (height_st t).2 = t := by
  induction t with
  | nil => rfl
  | node l x r ihl ihr => simp [height_st, ihl, ihr]

theorem check_balance_st_frame (t : Tree) : (check_balance_st t).2 = t := by
  induction t with
  | nil => rfl
  | node l x r ihl ihr => simp [check_balance_st, ihl, ihr]

theorem count_st_frame (t : Tree) : (count_st t).2 = t := by
  induction t with
  | nil => rfl
  | node l x r ihl ihr => simp [count_st, ihl, ihr]

/-! The claims. -/

/-- C1: the claim states that after every delete on the AVL engine the balance
invariant holds because delete rebalances every ancestor.  The code violates
this: `AVLTree` inherits `BinarySearchTree.delete` unchanged and never
rebalances after a removal.  Inserting 2, 1, 3, 4 through the AVL engine gives
a balanced tree, the delete succeeds, and the resulting tree fails
`is_balanced`. -/
theorem C1_avl_delete_breaks_balance :
    is_balanced (avl_insert_all [2, 1, 3, 4]) = true ∧
    (delete_recursive (avl_insert_all [2, 1, 3, 4]) 1).2 = true ∧
    is_balanced (delete_recursive (avl_insert_all [2, 1, 3, 4]) 1).1 = false := by
  decide

/-- C2: after every sequence of caller-level AVL inserts starting from the
empty tree, `is_balanced` returns true; every prefix of a sequence is itself
such a sequence, so the invariant holds after each intermediate insert
(duplicate inserts fail and leave the tree unchanged, so the statement covers
all insert sequences, in particular successful inserts of distinct keys). -/
theorem C2_avl_inserts_stay_balanced (l : List Int) :
    is_balanced (avl_insert_all l) = true :=
  (is_balanced_iff_AvlP (avl_insert_all l)).mpr (avl_insert_all_avlP l)

/-- C3: for every sequence of inserts on either engine, the inorder traversal
is strictly ascending and its members are exactly the keys that were
successfully inserted (precisely the distinct keys of the request list, since
duplicates are rejected). -/
theorem C3_inorder_sorted_after_inserts (l : List Int) :
    List.Sorted (fun a b => a < b) (inorder (bst_insert_all l)) ∧
    List.Sorted (fun a b => a < b) (inorder (avl_insert_all l)) ∧
    (∀ k, k ∈ inorder (bst_insert_all l) ↔ k ∈ l) ∧
    (∀ k, k ∈ inorder (avl_insert_all l) ↔ k ∈ l) := by
  refine ⟨?_, ?_, ?_, ?_⟩
  · exact (ordered_iff_pairwise _).mp (bst_insert_all_ordered l)
  · exact (ordered_iff_pairwise _).mp (avl_insert_all_ordered l)
  · intro k
    have h := mem_bst_foldl l nil (by simp [Ordered]) k
    simpa [bst_insert_all, inorder] using h
  · intro k
    have h := mem_avl_foldl l nil (by simp [Ordered]) k
    simpa [avl_insert_all, inorder] using h

/-- C4: deleting a key at a node with two children overwrites the node's key
with the in-order successor (the leftmost, i.e. minimum, key of the right
subtree) and removes the successor node from the right subtree; concretely,
after inserting 50, 30, 70, 20, 40, 60, 80 and deleting 30 the inorder list is
20, 40, 50, 60, 70, 80 and the node that held 30 now holds 40. -/
theorem C4_two_children_delete (ll : Tree) (lx : Int) (lr : Tree) (x : Int)
    (rl : Tree) (rx : Int) (rr : Tree) :
    delete_recursive (node (node ll lx lr) x (node rl rx rr)) x =
      (node (node ll lx lr) (min_val (node rl rx rr)) (splice_min (node rl rx rr)),
       true) ∧
    (inorder (node rl rx rr)).head? = some (min_val (node rl rx rr)) ∧
    (Ordered (node rl rx rr) →
      ∀ k ∈ inorder (node rl rx rr), min_val (node rl rx rr) ≤ k) ∧
    inorder (delete_recursive (bst_insert_all [50, 30, 70, 20, 40, 60, 80]) 30).1 =
      [20, 40, 50, 60, 70, 80] ∧
    (delete_recursive (bst_insert_all [50, 30, 70, 20, 40, 60, 80]) 30).1 =
      node (node (node nil 20 nil) 40 nil) 50
        (node (node nil 60 nil) 70 (node nil 80 nil)) := by
  refine ⟨?_, inorder_head_min_val rl rx rr, min_val_le rl rx rr, by decide, by decide⟩
  simp [delete_recursive]

theorem C4_two_children_delete_witness :
    delete_recursive (node (node nil 20 nil) 30 (node nil 40 nil)) 30 =
      (node (node nil 20 nil) (min_val (node nil 40 nil)) (splice_min (node nil 40 nil)),
       true) ∧
    min_val (node nil 40 nil) ≤ 40 :=
  ⟨(C4_two_children_delete nil 20 nil 30 nil 40 nil).1,
   (C4_two_children_delete nil 20 nil 30 nil 40 nil).2.2.1
     (by simp [Ordered, inorder]) 40 (by simp [inorder])⟩

/-- C5: on an ordered tree, a successful delete makes a later search return
not-found and shrinks the node count by exactly one; deleting an absent key
returns false and leaves the tree (hence its size) unchanged. -/
theorem C5_delete_correct (t : Tree) (k : Int) (ho : Ordered t) :
    ((delete_recursive t k).2 = true →
        search_recursive (delete_recursive t k).1 k = none ∧
        count_nodes (delete_recursive t k).1 + 1 = count_nodes t) ∧
    (k ∉ inorder t →
        (delete_recursive t k).2 = false ∧
        (delete_recursive t k).1 = t ∧
        count_nodes (delete_recursive t k).1 = count_nodes t) := by
  constructor
  · intro hd
    have hmem := delete_deleted_mem t k ho hd
    have hio := delete_inorder t k ho hd
    have hord2 : Ordered (delete_recursive t k).1 := by
      rw [ordered_iff_pairwise] at ho ⊢
      rw [hio]
      exact List.Pairwise.sublist (List.erase_sublist _ _) ho
    have hnd : (inorder t).Nodup :=
      List.Pairwise.imp (fun h => ne_of_lt h) ((ordered_iff_pairwise t).mp ho)
    have hnotmem : k ∉ inorder (delete_recursive t k).1 := by
      rw [hio]
      exact hnd.not_mem_erase
    refine ⟨search_not_found _ k hord2 hnotmem, ?_⟩
    rw [count_nodes_eq_length, count_nodes_eq_length, hio,
      List.length_erase_of_mem hmem]
    have hpos : 0 < (inorder t).length := List.length_pos_of_mem hmem
    omega
  · intro hk
    have hd := delete_not_found t k ho hk
    have heq := delete_not_deleted t k hd
    exact ⟨hd, heq, by rw [heq]⟩

theorem C5_delete_correct_witness :
    search_recursive (delete_recursive (node nil 5 nil) 5).1 5 = none ∧
    count_nodes (delete_recursive (node nil 5 nil) 5).1 + 1 =
      count_nodes (node nil 5 nil) :=
  (C5_delete_correct (node nil 5 nil) 5 (by simp [Ordered, inorder])).1 rfl

/-- C6: inserting a key already present fails with the duplicate error on
both engines (the raised exception propagates before any attach, rotation or
height change, so the caller-visible tree is identical) and size, inorder and
height are unchanged. -/
theorem C6_duplicate_insert_rejected (t : Tree) (k : Int)
    (ho : Ordered t) (hk : k ∈ inorder t) :
    insert_recursive t k = none ∧
    insert_avl t k = none ∧
    bst_insert_step t k = t ∧
    avl_insert_step t k = t ∧
    count_nodes (bst_insert_step t k) = count_nodes t ∧
    inorder (bst_insert_step t k) = inorder t ∧
    height_recursive (bst_insert_step t k) = height_recursive t ∧
    count_nodes (avl_insert_step t k) = count_nodes t ∧
    inorder (avl_insert_step t k) = inorder t ∧
    height_recursive (avl_insert_step t k) = height_recursive t := by
  have h1 : insert_recursive t k = none := (insert_recursive_none_iff t k ho).mpr hk
  have h2 : insert_avl t k = none := (insert_avl_none_iff t k ho).mpr hk
  have h3 : bst_insert_step t k = t := by simp [bst_insert_step, h1]
  have h4 : avl_insert_step t k = t := by simp [avl_insert_step, h2]
  exact ⟨h1, h2, h3, h4, by rw [h3], by rw [h3], by rw [h3],
    by rw [h4], by rw [h4], by rw [h4]⟩

theorem C6_duplicate_insert_rejected_witness :
    insert_recursive (node nil 5 nil) 5 = none ∧
    insert_avl (node nil 5 nil) 5 = none ∧
    bst_insert_step (node nil 5 nil) 5 = node nil 5 nil ∧
    avl_insert_step (node nil 5 nil) 5 = node nil 5 nil ∧
    count_nodes (bst_insert_step (node nil 5 nil) 5) = count_nodes (node nil 5 nil) ∧
    inorder (bst_insert_step (node nil 5 nil) 5) = inorder (node nil 5 nil) ∧
    height_recursive (bst_insert_step (node nil 5 nil) 5) =
      height_recursive (node nil 5 nil) ∧
    count_nodes (avl_insert_step (node nil 5 nil) 5) = count_nodes (node nil 5 nil) ∧
    inorder (avl_insert_step (node nil 5 nil) 5) = inorder (node nil 5 nil) ∧
    height_recursive (avl_insert_step (node nil 5 nil) 5) =
      height_recursive (node nil 5 nil) :=
  C6_duplicate_insert_rejected (node nil 5 nil) 5 (by simp [Ordered, inorder])
    (by simp [inorder])

/-- C7: rotate-left on a node X with right child Y makes Y the subtree root
with X as its left child and Y's original left subtree as X's right subtree;
rotate-right is the mirror; both preserve the in-order key sequence. -/
theorem C7_rotations (a : Tree) (x : Int) (b : Tree) (y : Int) (c : Tree) :
    rotate_left (node a x (node b y c)) = node (node a x b) y c ∧
    rotate_right (node (node a x b) y c) = node a x (node b y c) ∧
    inorder (rotate_left (node a x (node b y c))) = inorder (node a x (node b y c)) ∧
    inorder (rotate_right (node (node a x b) y c)) = inorder (node (node a x b) y c) :=
  ⟨rfl, rfl, inorder_rotate_left _, inorder_rotate_right _⟩

/-- C8: inserting 1 .. 7 in order into the AVL engine gives final height 2 and
a balanced tree after every one of the seven inserts, while the plain BST on
the same sequence ends at height 6. -/
theorem C8_seven_keys_scenario :
    height_recursive (avl_insert_all [1, 2, 3, 4, 5, 6, 7]) = 2 ∧
    is_balanced (avl_insert_all [1]) = true ∧
    is_balanced (avl_insert_all [1, 2]) = true ∧
    is_balanced (avl_insert_all [1, 2, 3]) = true ∧
    is_balanced (avl_insert_all [1, 2, 3, 4]) = true ∧
    is_balanced (avl_insert_all [1, 2, 3, 4, 5]) = true ∧
    is_balanced (avl_insert_all [1, 2, 3, 4, 5, 6]) = true ∧
    is_balanced (avl_insert_all [1, 2, 3, 4, 5, 6, 7]) = true ∧
    height_recursive (bst_insert_all [1, 2, 3, 4, 5, 6, 7]) = 6 := by
  decide

/-- C9: on an ordered tree, a successful insert grows the node count by
exactly one and a subsequent search finds a node holding the inserted key;
this holds for both the plain BST and the AVL engine. -/
theorem C9_insert_success (t : Tree) (k : Int) (ho : Ordered t) :
    (∀ t', insert_recursive t k = some t' →
        count_nodes t' = count_nodes t + 1 ∧ search_recursive t' k = some k) ∧
    (∀ t', insert_avl t k = some t' →
        count_nodes t' = count_nodes t + 1 ∧ search_recursive t' k = some k) := by
  constructor
  · intro t' h
    refine ⟨count_insert_recursive t t' k h, ?_⟩
    exact search_found t' k (insert_recursive_ordered t k ho t' h)
      ((mem_insert_recursive t t' k h k).mpr (Or.inl rfl))
  · intro t' h
    refine ⟨count_insert_avl t t' k h, ?_⟩
    exact search_found t' k (insert_avl_ordered t k ho t' h)
      ((mem_insert_avl t t' k h k).mpr (Or.inl rfl))

theorem C9_insert_success_witness :
    count_nodes (node nil 3 nil) = count_nodes (nil : Tree) + 1 ∧
    search_recursive (node nil 3 nil) 3 = some 3 :=
  (C9_insert_success nil 3 (by simp [Ordered])).1 (node nil 3 nil) rfl

/-- C10: every query operation (search, the four traversals, find-min,
find-max, height, is-balanced, size) hands back the tree it was given
structurally unchanged: the state-threaded embeddings of the query method
bodies return the input tree. -/
theorem C10_queries_frame (t : Tree) (v : Int) :
    (search_st t v).2 = t ∧ (inorder_st t).2 = t ∧ (preorder_st t).2 = t ∧
    (postorder_st t).2 = t ∧ (levelorder_st t).2 = t ∧ (find_min_st t).2 = t ∧
    (find_max_st t).2 = t ∧ (height_st t).2 = t ∧ (check_balance_st t).2 = t ∧
    (count_st t).2 = t :=
  ⟨search_st_frame t v, inorder_st_frame t, preorder_st_frame t,
   postorder_st_frame t, rfl, find_min_st_frame t, find_max_st_frame t,
   height_st_frame t, check_balance_st_frame t, count_st_frame t⟩

end Assignment11
